import Mathlib

/-!
Verification of the Miller–Rabin primality test from
`src/Miller_Rabin_karp.cpp`.

The C++ source works on `long long` (64-bit signed) values, with the one
128-bit intermediate inside `mulmod`.  We embed the integers as `Int`,
which is exact: the only place the C++ code could overflow is the product
inside `mulmod`, and there the source uses `__int128`, which never wraps
for factors coming from 64-bit values (the product is below `2^127`), so
the `Int` embedding computes the same values as the machine does on the
whole `long long` domain.

C operator semantics used below:
* `%` on `long long` is the truncated remainder; we embed it as
  `Int.tmod` (identical to C for all inputs).
* `x >> 1` on `long long` is an arithmetic shift, i.e. floor division by
  two; for every two's-complement value this is Lean's `x / 2`
  (Euclidean division by the positive constant 2 coincides with floor
  division).
* `x & 1` is the low bit, which for every two's-complement value equals
  the Euclidean remainder `x % 2`.

The two `while` loops of the source are embedded with an explicit
iteration budget (`modexpFuel`, `splitOddFuel`).  A 64-bit exponent is
halved away after at most 63 iterations and the odd-part extraction
strips at most 62 factors of two from a positive 64-bit value, so budget
64 reproduces the loops exactly on the whole `long long` domain; the
budget-irrelevance lemma `modexpFuel_congr` below makes this precise.
-/

namespace MillerRabinKarp

/-- C++ `mulmod`: `__int128 res = (__int128)a * b; return (long long)(res % mod);`.
The 128-bit product of two 64-bit values is exact, and C's `%` is the
truncated remainder `Int.tmod`. -/
def mulmod (a b m : Int) : Int := (a * b).tmod m

/-- The loop of C++ `modexp`, with an explicit iteration budget:
`while(b > 0) { if(b & 1) result = mulmod(result, a, mod); a = mulmod(a, a, mod); b >>= 1; }`. -/
def modexpFuel : Nat → Int → Int → Int → Int → Int
  | 0, result, _, _, _ => result
  | fuel + 1, result, a, b, m =>
    if 0 < b then
      modexpFuel fuel (if b % 2 = 1 then mulmod result a m else result)
        (mulmod a a m) (b / 2) m
    else result

/-- C++ `modexp(a, b, mod)`: fast binary exponentiation.  `result` starts
at `1`; the loop halves `b` each round, so a 64-bit `b` is exhausted
within 63 rounds and budget 64 reproduces the `while` loop exactly on the
`long long` domain (see `modexpFuel_congr`). -/
def modexp (a b m : Int) : Int := modexpFuel 64 1 a b m

/-- The squaring loop of C++ `check_composite`:
`for(int r = 1; r < s; r++) { x = mulmod(x, x, n); if(x == n-1) return false; if(x == 1) return true; }`
followed by `return true;`.  The argument counts the remaining rounds,
`s - 1` in total. -/
def squareLoop (n : Int) : Int → Nat → Bool
  | _, 0 => true
  | x, k + 1 =>
    let x2 := mulmod x x n
    if x2 = n - 1 then false
    else if x2 = 1 then true
    else squareLoop n x2 k

/-- C++ `check_composite(a, d, n, s)`: Miller–Rabin witness test for one
base `a`.  The `for` loop runs for `r = 1, …, s-1`, i.e. `(s-1).toNat`
rounds. -/
def check_composite (a d n s : Int) : Bool :=
  let x := modexp a d n
  if x = 1 ∨ x = n - 1 then false
  else squareLoop n x (s - 1).toNat

/-- The loop of C++ `isPrime` that writes `n − 1 = 2^s * d` with `d` odd:
`while((d & 1) == 0) { d >>= 1; s++; }`, with an explicit iteration
budget.  The loop strips one factor of two per round; a positive 64-bit
value has at most 62 trailing zero bits, so budget 64 reproduces the
`while` loop exactly at the single call site (where `d = n - 1 ≥ 2`). -/
def splitOddFuel : Nat → Int → Int → Int × Int
  | 0, d, s => (d, s)
  | fuel + 1, d, s =>
    if d % 2 = 0 then splitOddFuel fuel (d / 2) (s + 1) else (d, s)

/-- The decomposition `n − 1 = 2^s * d` of C++ `isPrime`, starting from
`d = n - 1` and `s = 0`. -/
def splitOdd (d0 : Int) : Int × Int := splitOddFuel 64 d0 0

/-- C++ `long long test_bases[] = {2, 3, 5, 7, 11, 13, 17};`. -/
def test_bases : List Int := [2, 3, 5, 7, 11, 13, 17]

/-- The base loop of C++ `isPrime`:
`for(long long a : test_bases) { if(a >= n) continue; if(check_composite(a, d, n, s)) return false; }`
followed by `return true;`. -/
def baseLoop (d n s : Int) : List Int → Bool
  | [] => true
  | a :: rest =>
    if n ≤ a then baseLoop d n s rest
    else if check_composite a d n s then false
    else baseLoop d n s rest

/-- C++ `isPrime(n)`.  The branch `if(n % 2 == 0) return (n == 2);` is
only reached for `n ≥ 2`, where C's truncated `%` agrees with the
Euclidean `%` used here. -/
def isPrime (n : Int) : Bool :=
  if n < 2 then false
  else if n % 2 = 0 then decide (n = 2)
  else
    let p := splitOdd (n - 1)
    baseLoop p.1 n p.2 test_bases

/-- Reference sequence for the Miller–Rabin squarings of base `a` odd
part `d` and candidate `n`: `millerSeq a d n i = (a^d)^(2^i) mod n`,
the value the witness loop holds after `i` squarings. -/
def millerSeq (a d n : Int) (i : Nat) : Int := (a ^ d.toNat) ^ 2 ^ i % n

/-! ### The modular-arithmetic kernel -/

/-- On nonnegative products the truncated remainder of `mulmod` agrees
with the Euclidean remainder. -/
theorem mulmod_eq_emod {a b m : Int} (ha : 0 ≤ a) (hb : 0 ≤ b) (hm : 0 ≤ m) :
    mulmod a b m = a * b % m := by
  unfold mulmod
  exact Int.tmod_eq_emod (mul_nonneg ha hb) hm

theorem mulmod_nonneg {a b m : Int} (ha : 0 ≤ a) (hb : 0 ≤ b) (hm : 0 < m) :
    0 ≤ mulmod a b m := by
  rw [mulmod_eq_emod ha hb hm.le]
  exact Int.emod_nonneg _ hm.ne'

theorem mulmod_lt {a b m : Int} (ha : 0 ≤ a) (hb : 0 ≤ b) (hm : 0 < m) :
    mulmod a b m < m := by
  rw [mulmod_eq_emod ha hb hm.le]
  exact Int.emod_lt_of_pos _ hm

/-- The iteration budget of the exponentiation loop is irrelevant as soon
as it exceeds the bit length of the exponent: the loop has terminated by
then. -/
theorem modexpFuel_congr :
    ∀ (f1 f2 : Nat) (r a b m : Int), b.toNat < 2 ^ f1 → b.toNat < 2 ^ f2 →
      modexpFuel f1 r a b m = modexpFuel f2 r a b m := by
  intro f1
  induction f1 with
  | zero =>
    intro f2 r a b m h1 _
    have hb : ¬ 0 < b := by simp at h1; omega
    cases f2 with
    | zero => rfl
    | succ f2 => simp [modexpFuel, hb]
  | succ f1 ih =>
    intro f2 r a b m h1 h2
    cases f2 with
    | zero =>
      have hb : ¬ 0 < b := by simp at h2; omega
      simp [modexpFuel, hb]
    | succ f2 =>
      simp only [modexpFuel]
      by_cases hb : 0 < b
      · simp only [hb, if_true]
        refine ih f2 _ _ _ _ ?_ ?_
        · have : (b / 2).toNat = b.toNat / 2 := by omega
          rw [this]
          have := Nat.pow_succ 2 f1 ▸ h1
          omega
        · have : (b / 2).toNat = b.toNat / 2 := by omega
          rw [this]
          have := Nat.pow_succ 2 f2 ▸ h2
          omega
      · simp [hb]

/-- Main loop invariant of binary exponentiation: with a modulus of at
least 2, a nonnegative running result below the modulus and a
nonnegative base, the loop computes `result * a^b mod m`. -/
theorem modexpFuel_correct :
    ∀ (f : Nat) (r a b m : Int), 0 ≤ r → r < m → 0 ≤ a → 2 ≤ m →
      b.toNat < 2 ^ f → modexpFuel f r a b m = r * a ^ b.toNat % m := by
  intro f
  induction f with
  | zero =>
    intro r a b m hr0 hrm ha hm h1
    have hb : b.toNat = 0 := by simp at h1; omega
    rw [hb]
    simpa [modexpFuel] using (Int.emod_eq_of_lt hr0 hrm).symm
  | succ f ih =>
    intro r a b m hr0 hrm ha hm h1
    have hmpos : (0 : Int) < m := by omega
    by_cases hb : 0 < b
    · simp only [modexpFuel, hb, if_true]
      set r2 : Int := if b % 2 = 1 then mulmod r a m else r with hr2
      have hr20 : 0 ≤ r2 := by
        rw [hr2]; split
        · exact mulmod_nonneg hr0 ha hmpos
        · exact hr0
      have hr2m : r2 < m := by
        rw [hr2]; split
        · exact mulmod_lt hr0 ha hmpos
        · exact hrm
      have ha2 : 0 ≤ mulmod a a m := mulmod_nonneg ha ha hmpos
      have hfuel : (b / 2).toNat < 2 ^ f := by
        have : (b / 2).toNat = b.toNat / 2 := by omega
        rw [this]
        have := Nat.pow_succ 2 f ▸ h1
        omega
      rw [ih r2 (mulmod a a m) (b / 2) m hr20 hr2m ha2 hm hfuel]
      have key : r2 * mulmod a a m ^ (b / 2).toNat ≡ r * a ^ b.toNat [ZMOD m] := by
        have hsq : mulmod a a m ≡ a * a [ZMOD m] := by
          rw [mulmod_eq_emod ha ha hmpos.le]
          exact Int.emod_emod_of_dvd _ dvd_rfl
        have hpow : mulmod a a m ^ (b / 2).toNat ≡ (a * a) ^ (b / 2).toNat [ZMOD m] :=
          hsq.pow _
        have hexp : b.toNat = 2 * (b / 2).toNat + b.toNat % 2 := by omega
        by_cases hpar : b % 2 = 1
        · have hr2e : r2 = r * a % m := by
            rw [hr2, if_pos hpar, mulmod_eq_emod hr0 ha hmpos.le]
          have h1e : r2 ≡ r * a [ZMOD m] := by
            rw [hr2e]
            exact Int.emod_emod_of_dvd _ dvd_rfl
          calc r2 * mulmod a a m ^ (b / 2).toNat
              ≡ (r * a) * (a * a) ^ (b / 2).toNat [ZMOD m] := h1e.mul hpow
            _ = r * a ^ b.toNat := by
                rw [hexp]
                have hodd : b.toNat % 2 = 1 := by omega
                rw [hodd]
                ring
        · have hpar0 : b % 2 = 0 := by omega
          have hr2e : r2 = r := by rw [hr2, if_neg (by omega)]
          calc r2 * mulmod a a m ^ (b / 2).toNat
              ≡ r * (a * a) ^ (b / 2).toNat [ZMOD m] := by
                rw [hr2e]; exact Int.ModEq.mul_left r hpow
            _ = r * a ^ b.toNat := by
                rw [hexp]
                have heven : b.toNat % 2 = 0 := by omega
                rw [heven]
                ring
      exact key
    · have hb0 : b.toNat = 0 := by omega
      simp only [modexpFuel, hb, if_false, hb0]
      simpa using (Int.emod_eq_of_lt hr0 hrm).symm

/-- `modexp` computes `a ^ b mod m` for every modulus of at least 2,
nonnegative base and 64-bit exponent (a nonpositive exponent gives
`a ^ 0 = 1`). -/
theorem modexp_eq_pow_emod {a b m : Int} (ha : 0 ≤ a) (hm : 2 ≤ m)
    (hb : b.toNat < 2 ^ 64) : modexp a b m = a ^ b.toNat % m := by
  unfold modexp
  rw [modexpFuel_correct 64 1 a b m (by omega) (by omega) ha hm hb, one_mul]

/-- When the exponent is nonpositive the loop body never runs. -/
theorem modexp_of_nonpos {a b m : Int} (hb : b ≤ 0) : modexp a b m = 1 := by
  have : ¬ 0 < b := by omega
  simp [modexp, modexpFuel, this]

/-- With modulus 1 every multiplication step collapses to 0, so as soon
as the exponent is positive the loop returns 0. -/
theorem modexpFuel_modulus_one :
    ∀ (f : Nat) (r a b : Int), 1 ≤ b → b.toNat < 2 ^ f →
      modexpFuel f r a b 1 = 0 := by
  intro f
  induction f with
  | zero =>
    intro r a b hb h1
    simp at h1; omega
  | succ f ih =>
    intro r a b hb h1
    have hbpos : 0 < b := by omega
    simp only [modexpFuel, hbpos, if_true]
    by_cases hb1 : b = 1
    · subst hb1
      have : (1 : Int) / 2 = 0 := by decide
      rw [this]
      have hmul : mulmod (if (1 : Int) % 2 = 1 then mulmod r a 1 else r) (mulmod a a 1) 1 = _ := rfl
      cases f with
      | zero => simp [modexpFuel, mulmod, Int.tmod_one]
      | succ f => simp [modexpFuel, mulmod, Int.tmod_one]
    · have hb2 : 2 ≤ b := by omega
      refine ih _ _ _ ?_ ?_
      · omega
      · have : (b / 2).toNat = b.toNat / 2 := by omega
        rw [this]
        have := Nat.pow_succ 2 f ▸ h1
        omega

/-! ### Characterisation of the witness loop -/

theorem millerSeq_nonneg {a d n : Int} (hn : 0 < n) (i : Nat) :
    0 ≤ millerSeq a d n i :=
  Int.emod_nonneg _ hn.ne'

theorem millerSeq_lt {a d n : Int} (hn : 0 < n) (i : Nat) :
    millerSeq a d n i < n :=
  Int.emod_lt_of_pos _ hn

/-- One squaring step of the loop advances the reference sequence. -/
theorem millerSeq_succ {a d n : Int} (hn : 0 < n) (i : Nat) :
    mulmod (millerSeq a d n i) (millerSeq a d n i) n = millerSeq a d n (i + 1) := by
  have h0 : 0 ≤ millerSeq a d n i := millerSeq_nonneg hn i
  rw [mulmod_eq_emod h0 h0 hn.le]
  unfold millerSeq
  rw [← Int.mul_emod]
  congr 1
  rw [← pow_add]
  congr 1
  omega

/-- First-hit description of the squaring loop: starting at position `t`
of the reference sequence with `k` rounds of budget, the loop reports
"not a witness" (`false`) exactly when some later position within reach
equals `n - 1` and no strictly earlier later position equals `1` or
`n - 1`. -/
theorem squareLoop_false_iff {a d n : Int} (hn : 3 ≤ n) :
    ∀ (k t : Nat), (squareLoop n (millerSeq a d n t) k = false ↔
      ∃ i : Nat, t + 1 ≤ i ∧ i ≤ t + k ∧ millerSeq a d n i = n - 1 ∧
        ∀ j : Nat, t + 1 ≤ j → j < i →
          millerSeq a d n j ≠ 1 ∧ millerSeq a d n j ≠ n - 1) := by
  have hnpos : (0 : Int) < n := by omega
  intro k
  induction k with
  | zero =>
    intro t
    constructor
    · intro h
      simp [squareLoop] at h
    · rintro ⟨i, hi1, hi2, _⟩
      omega
  | succ k ih =>
    intro t
    have hstep := millerSeq_succ (a := a) (d := d) (n := n) hnpos t
    constructor
    · intro h
      simp only [squareLoop, hstep] at h
      by_cases h1 : millerSeq a d n (t + 1) = n - 1
      · exact ⟨t + 1, by omega, by omega, h1, by omega⟩
      · rw [if_neg h1] at h
        by_cases h2 : millerSeq a d n (t + 1) = 1
        · rw [if_pos h2] at h
          exact absurd h (by simp)
        · rw [if_neg h2] at h
          obtain ⟨i, hi1, hi2, hiw, himin⟩ := (ih (t + 1)).mp h
          refine ⟨i, by omega, by omega, hiw, ?_⟩
          intro j hj1 hj2
          rcases Nat.lt_or_ge j (t + 2) with hj | hj
          · have : j = t + 1 := by omega
            subst this
            exact ⟨h2, h1⟩
          · exact himin j (by omega) hj2
    · rintro ⟨i, hi1, hi2, hiw, himin⟩
      simp only [squareLoop, hstep]
      by_cases h1 : millerSeq a d n (t + 1) = n - 1
      · rw [if_pos h1]
      · rw [if_neg h1]
        have hit : t + 2 ≤ i := by
          rcases Nat.lt_or_ge i (t + 2) with hi | hi
          · have : i = t + 1 := by omega
            subst this
            exact absurd hiw h1
          · exact hi
        have h2 : millerSeq a d n (t + 1) ≠ 1 :=
          (himin (t + 1) (by omega) (by omega)).1
        rw [if_neg h2]
        refine (ih (t + 1)).mpr ⟨i, by omega, by omega, hiw, ?_⟩
        intro j hj1 hj2
        exact himin j (by omega) hj2

/-- Core description of `check_composite`, in terms of the reference
squaring sequence.  The hypotheses cover the values the primality test
feeds into it; a negative `d` is allowed (the exponentiation loop is
skipped and the sequence is constantly `1`). -/
theorem check_composite_false_core {a d n s : Int}
    (hn : 3 ≤ n) (ha : 0 ≤ a) (hd64 : d < 2 ^ 63) :
    (check_composite a d n s = false ↔
      millerSeq a d n 0 = 1 ∨ millerSeq a d n 0 = n - 1 ∨
        ∃ i : Nat, 1 ≤ i ∧ i ≤ (s - 1).toNat ∧ millerSeq a d n i = n - 1 ∧
          ∀ j : Nat, 1 ≤ j → j < i →
            millerSeq a d n j ≠ 1 ∧ millerSeq a d n j ≠ n - 1) := by
  have hx0 : modexp a d n = millerSeq a d n 0 := by
    rw [modexp_eq_pow_emod ha (by omega) (by omega)]
    unfold millerSeq
    norm_num
  unfold check_composite
  rw [hx0]
  by_cases h0 : millerSeq a d n 0 = 1 ∨ millerSeq a d n 0 = n - 1
  · simp only [h0, if_true]
    constructor
    · intro _
      rcases h0 with h0 | h0
      · exact Or.inl h0
      · exact Or.inr (Or.inl h0)
    · intro _
      trivial
  · simp only [h0, if_false]
    rw [squareLoop_false_iff hn ((s - 1).toNat) 0]
    push_neg at h0
    constructor
    · rintro ⟨i, hi1, hi2, hiw, himin⟩
      exact Or.inr (Or.inr ⟨i, by omega, by omega, hiw, fun j hj1 hj2 => himin j (by omega) hj2⟩)
    · rintro (h | h | ⟨i, hi1, hi2, hiw, himin⟩)
      · exact absurd h h0.1
      · exact absurd h h0.2
      · exact ⟨i, by omega, by omega, hiw, fun j hj1 hj2 => himin j (by omega) hj2⟩

/-! ### Number theory: a prime passes every base -/

/-- If `n` is prime then the reference squaring sequence of any base
`2 ≤ a < n` satisfies the pass condition of the witness loop: the odd
power is `1`, or some squaring within reach hits `n - 1` first.  This is
the classical soundness argument: in the field `ZMod n` the only square
roots of `1` are `±1`, and `a^(n-1) = 1` by Fermat. -/
theorem prime_gives_pass {a d n s : Int}
    (hn3 : 3 ≤ n) (ha2 : 2 ≤ a) (han : a < n)
    (hs1 : 1 ≤ s) (hd1 : 1 ≤ d) (hdec : n - 1 = d * 2 ^ s.toNat)
    (hp : n.toNat.Prime) :
    millerSeq a d n 0 = 1 ∨ millerSeq a d n 0 = n - 1 ∨
      ∃ i : Nat, 1 ≤ i ∧ i ≤ (s - 1).toNat ∧ millerSeq a d n i = n - 1 ∧
        ∀ j : Nat, 1 ≤ j → j < i →
          millerSeq a d n j ≠ 1 ∧ millerSeq a d n j ≠ n - 1 := by
  have hnpos : (0 : Int) < n := by omega
  set N := n.toNat with hNdef
  have hN : (N : Int) = n := Int.toNat_of_nonneg (by omega)
  haveI : Fact N.Prime := ⟨hp⟩
  set A : ZMod N := (a : ZMod N) with hA
  set b : ZMod N := A ^ d.toNat with hb
  have castmod : ∀ x : Int, ((x % n : Int) : ZMod N) = (x : ZMod N) := by
    intro x
    refine (ZMod.intCast_eq_intCast_iff' _ _ _).mpr ?_
    rw [hN]
    exact Int.emod_emod_of_dvd x dvd_rfl
  have castSeq : ∀ i : Nat, ((millerSeq a d n i : Int) : ZMod N) = b ^ 2 ^ i := by
    intro i
    unfold millerSeq
    rw [castmod]
    push_cast
    rfl
  have inj : ∀ x y : Int, 0 ≤ x → x < n → 0 ≤ y → y < n →
      ((x : ZMod N) = (y : ZMod N)) → x = y := by
    intro x y hx0 hxn hy0 hyn h
    have := (ZMod.intCast_eq_intCast_iff' x y N).mp h
    rw [hN, Int.emod_eq_of_lt hx0 hxn, Int.emod_eq_of_lt hy0 hyn] at this
    exact this
  have hA0 : A ≠ 0 := by
    intro h
    have hdvd := (ZMod.intCast_zmod_eq_zero_iff_dvd a N).mp h
    have := Int.le_of_dvd (by omega) hdvd
    rw [hN] at this
    omega
  have hd0 : (0 : Int) ≤ d := by omega
  have hNd : d.toNat * 2 ^ s.toNat = N - 1 := by
    have h1 : ((d.toNat * 2 ^ s.toNat : Nat) : Int) = d * 2 ^ s.toNat := by
      push_cast [Int.toNat_of_nonneg hd0]
      ring
    have h2 : ((N - 1 : Nat) : Int) = n - 1 := by omega
    have h3 : ((d.toNat * 2 ^ s.toNat : Nat) : Int) = ((N - 1 : Nat) : Int) := by
      rw [h1, h2, ← hdec]
    exact_mod_cast h3
  have hb1 : b ^ 2 ^ s.toNat = 1 := by
    rw [hb, ← pow_mul, hNd]
    exact ZMod.pow_card_sub_one_eq_one hA0
  have hex : ∃ k : Nat, b ^ 2 ^ k = 1 := ⟨s.toNat, hb1⟩
  set k := Nat.find hex with hkdef
  have hk : b ^ 2 ^ k = 1 := Nat.find_spec hex
  have hkle : k ≤ s.toNat := Nat.find_min' hex hb1
  have hmin : ∀ j, j < k → b ^ 2 ^ j ≠ 1 := fun j hj => Nat.find_min hex hj
  have hcast1 : ((1 : Int) : ZMod N) = 1 := by push_cast; rfl
  have hcastn1 : ((n - 1 : Int) : ZMod N) = -1 := by
    have hn0 : ((n : Int) : ZMod N) = 0 := by
      rw [← hN]
      exact_mod_cast ZMod.natCast_self N
    push_cast
    rw [hn0]
    ring
  cases Nat.eq_zero_or_pos k with
  | inl hk0 =>
    left
    refine inj _ _ (millerSeq_nonneg hnpos 0) (millerSeq_lt hnpos 0) (by omega) (by omega) ?_
    rw [castSeq 0, hcast1]
    rw [hk0] at hk
    exact hk
  | inr hkpos =>
    obtain ⟨k2, hkk⟩ : ∃ k2, k = k2 + 1 := ⟨k - 1, by omega⟩
    rw [hkk] at hk
    set c : ZMod N := b ^ 2 ^ k2 with hc
    have hcc : c * c = 1 := by
      rw [hc, ← pow_add]
      have : 2 ^ k2 + 2 ^ k2 = 2 ^ (k2 + 1) := by
        rw [Nat.pow_succ]
        omega
      rw [this]
      exact hk
    have hc1 : c = 1 ∨ c = -1 := mul_self_eq_one_iff.mp hcc
    rcases hc1 with hc1 | hc1
    · exact absurd hc1 (hmin k2 (by omega))
    · have hseq : millerSeq a d n k2 = n - 1 := by
        refine inj _ _ (millerSeq_nonneg hnpos k2) (millerSeq_lt hnpos k2)
          (by omega) (by omega) ?_
        rw [castSeq k2, hcastn1, ← hc, hc1]
      cases Nat.eq_zero_or_pos k2 with
      | inl hk20 =>
        right; left
        rw [← hk20]
        exact hseq
      | inr hk2pos =>
        right; right
        refine ⟨k2, by omega, by omega, hseq, ?_⟩
        intro j hj1 hj2
        constructor
        · intro hbad
          have : ((millerSeq a d n j : Int) : ZMod N) = ((1 : Int) : ZMod N) := by
            rw [hbad]
          rw [castSeq j, hcast1] at this
          exact hmin j (by omega) this
        · intro hbad
          have hcj : b ^ 2 ^ j = -1 := by
            have : ((millerSeq a d n j : Int) : ZMod N) = ((n - 1 : Int) : ZMod N) := by
              rw [hbad]
            rw [castSeq j, hcastn1] at this
            exact this
          have : b ^ 2 ^ (j + 1) = 1 := by
            have h2 : (2 : Nat) ^ (j + 1) = 2 ^ j * 2 := Nat.pow_succ 2 j
            rw [h2, pow_mul, hcj]
            ring
          exact hmin (j + 1) (by omega) this

/-! ### Decomposition and base iteration -/

theorem splitOddFuel_spec :
    ∀ (f : Nat) (d s : Int), 0 < d → d.toNat < 2 ^ f →
      (splitOddFuel f d s).1 % 2 = 1 ∧ 0 < (splitOddFuel f d s).1 ∧
        s ≤ (splitOddFuel f d s).2 ∧
        (splitOddFuel f d s).1 * 2 ^ ((splitOddFuel f d s).2 - s).toNat = d ∧
        (d % 2 = 0 → s < (splitOddFuel f d s).2) := by
  intro f
  induction f with
  | zero =>
    intro d s hd h1
    simp at h1
    omega
  | succ f ih =>
    intro d s hd h1
    by_cases hpar : d % 2 = 0
    · have hd2 : 0 < d / 2 := by omega
      have hf2 : (d / 2).toNat < 2 ^ f := by
        have : (d / 2).toNat = d.toNat / 2 := by omega
        rw [this]
        have := Nat.pow_succ 2 f ▸ h1
        omega
      have hrec := ih (d / 2) (s + 1) hd2 hf2
      have hunfold : splitOddFuel (f + 1) d s =
          if d % 2 = 0 then splitOddFuel f (d / 2) (s + 1) else (d, s) := rfl
      rw [hunfold, if_pos hpar]
      obtain ⟨hodd, hpos, hs, hval, _⟩ := hrec
      refine ⟨hodd, hpos, by omega, ?_, by omega⟩
      have hexp : ((splitOddFuel f (d / 2) (s + 1)).2 - s).toNat =
          ((splitOddFuel f (d / 2) (s + 1)).2 - (s + 1)).toNat + 1 := by omega
      rw [hexp, pow_succ, ← mul_assoc, hval]
      omega
    · have hunfold : splitOddFuel (f + 1) d s =
          if d % 2 = 0 then splitOddFuel f (d / 2) (s + 1) else (d, s) := rfl
      rw [hunfold, if_neg hpar]
      have : d % 2 = 1 := by omega
      refine ⟨this, hd, le_refl s, ?_, by omega⟩
      simp

/-- The odd-part decomposition used by `isPrime`: for `2 ≤ d0 < 2^63`,
`splitOdd d0 = (d, s)` with `d` odd, `s ≥ 1` when `d0` is even, and
`d0 = d * 2^s`. -/
theorem splitOdd_spec {d0 : Int} (h2 : 0 < d0) (h64 : d0 < 2 ^ 63) :
    (splitOdd d0).1 % 2 = 1 ∧ 0 < (splitOdd d0).1 ∧ 0 ≤ (splitOdd d0).2 ∧
      (splitOdd d0).1 * 2 ^ ((splitOdd d0).2).toNat = d0 ∧
      (d0 % 2 = 0 → 1 ≤ (splitOdd d0).2) := by
  have hfuel : d0.toNat < 2 ^ 64 := by
    have h63 : (2 : Int) ^ 63 = ((2 ^ 63 : Nat) : Int) := by norm_num
    have : d0.toNat < 2 ^ 63 := by omega
    calc d0.toNat < 2 ^ 63 := this
      _ < 2 ^ 64 := by norm_num
  have := splitOddFuel_spec 64 d0 0 h2 hfuel
  unfold splitOdd
  obtain ⟨hodd, hpos, hs, hval, heven⟩ := this
  refine ⟨hodd, hpos, hs, ?_, fun h => by omega⟩
  simpa using hval

theorem baseLoop_true_iff (d n s : Int) :
    ∀ L : List Int, (baseLoop d n s L = true ↔
      ∀ a ∈ L, a < n → check_composite a d n s = false) := by
  intro L
  induction L with
  | nil => simp [baseLoop]
  | cons a rest ih =>
    simp only [baseLoop]
    by_cases hskip : n ≤ a
    · rw [if_pos hskip, ih]
      constructor
      · intro h x hx hxn
        rcases List.mem_cons.mp hx with rfl | hx
        · omega
        · exact h x hx hxn
      · intro h x hx hxn
        exact h x (List.mem_cons_of_mem a hx) hxn
    · rw [if_neg hskip]
      by_cases hw : check_composite a d n s
      · rw [if_pos hw]
        constructor
        · intro h
          exact absurd h (by simp)
        · intro h
          have := h a (List.mem_cons_self a rest) (by omega)
          rw [hw] at this
          cases this
      · rw [if_neg hw, ih]
        constructor
        · intro h x hx hxn
          rcases List.mem_cons.mp hx with rfl | hx
          · simpa using hw
          · exact h x hx hxn
        · intro h x hx hxn
          exact h x (List.mem_cons_of_mem a hx) hxn

/-- For odd `n ≥ 3` the trivial branches fall through to the base loop
over the decomposition of `n - 1`. -/
theorem isPrime_odd_unfold {n : Int} (h3 : 3 ≤ n) (hodd : n % 2 = 1) :
    isPrime n = baseLoop (splitOdd (n - 1)).1 n (splitOdd (n - 1)).2 test_bases := by
  have h1 : ¬ n < 2 := by omega
  have h2 : ¬ n % 2 = 0 := by omega
  simp [isPrime, h1, h2]

/-! ### The claims -/

/-- C1: the spec asserts that with the fixed base set {2,3,5,7,11,13,17}
`isPrime` never misclassifies any 64-bit signed integer.  The code does
not satisfy this: 341550071728321 = 10670053 * 32010157 is composite —
it is the smallest strong pseudoprime to all seven bases — yet
`isPrime` answers `true` on it. -/
theorem isPrime_misclassifies_psi7 :
    isPrime 341550071728321 = true ∧
      (341550071728321 : Nat) = 10670053 * 32010157 ∧
      ¬ Nat.Prime 341550071728321 := by
  refine ⟨by decide, by norm_num, ?_⟩
  have h : (341550071728321 : Nat) = 10670053 * 32010157 := by norm_num
  rw [h]
  exact Nat.not_prime_mul (by norm_num) (by norm_num)

/-- C2: under the witness evaluator preconditions (`n` odd, `n ≥ 3`, in
64-bit range, `2 ≤ a < n`, `d` odd, `s ≥ 1`, `n − 1 = d·2^s`), a
reported witness certifies that `n` is composite. -/
theorem check_composite_sound {a d n s : Int}
    (hn3 : 3 ≤ n) (hn64 : n < 2 ^ 63) (hodd : n % 2 = 1)
    (ha2 : 2 ≤ a) (han : a < n) (hd : d % 2 = 1) (hs1 : 1 ≤ s)
    (hdec : n - 1 = d * 2 ^ s.toNat)
    (hw : check_composite a d n s = true) : ¬ (n.toNat).Prime := by
  intro hp
  have h2pos : (0 : Int) < 2 ^ s.toNat := by positivity
  have hd1 : 1 ≤ d := by
    rcases le_or_lt d 0 with hle | hlt
    · exfalso
      nlinarith
    · omega
  have h2 : (2 : Int) ≤ 2 ^ s.toNat := by
    calc (2 : Int) = 2 ^ 1 := (pow_one 2).symm
      _ ≤ 2 ^ s.toNat := pow_le_pow_right₀ (by norm_num) (by omega)
  have hmul : d * 2 ≤ d * 2 ^ s.toNat := mul_le_mul_of_nonneg_left h2 (by omega)
  have hd64 : d < 2 ^ 63 := by omega
  have hpass := prime_gives_pass hn3 ha2 han hs1 hd1 hdec hp
  have hfalse := (check_composite_false_core hn3 (by omega) hd64 (s := s)).mpr hpass
  rw [hw] at hfalse
  cases hfalse

/-- C2 witness: base 2 is a witness for 9 (with 9 − 1 = 1·2³), so 9 is
not prime. -/
theorem check_composite_sound_witness : ¬ ((9 : Int).toNat).Prime :=
  check_composite_sound (a := 2) (d := 1) (n := 9) (s := 3) (by decide) (by decide)
    (by decide) (by decide) (by decide) (by decide) (by decide) (by decide) (by decide)

/-- C3: under the preconditions, `check_composite` returns `false`
("not a witness") exactly when `a^d mod n` is `1` or `n − 1`, or one of
the first `s − 1` successive squarings of `a^d mod n` equals `n − 1`
before any squaring yields `1`; in every other case (a squaring hits `1`
first, or the loop exhausts its `s − 1` rounds without reaching `n − 1`)
it returns `true`. -/
theorem check_composite_false_iff {a d n s : Int}
    (hn3 : 3 ≤ n) (hodd : n % 2 = 1) (ha2 : 2 ≤ a) (han : a < n)
    (hd : d % 2 = 1) (hd64 : d < 2 ^ 63) (hs1 : 1 ≤ s) :
    (check_composite a d n s = false ↔
      (millerSeq a d n 0 = 1 ∨ millerSeq a d n 0 = n - 1) ∨
        ∃ i : Nat, 1 ≤ i ∧ (i : Int) ≤ s - 1 ∧ millerSeq a d n i = n - 1 ∧
          ∀ j : Nat, 1 ≤ j → j < i → millerSeq a d n j ≠ 1) := by
  rw [check_composite_false_core hn3 (by omega) hd64 (s := s)]
  constructor
  · rintro (h | h | ⟨i, hi1, hi2, hiw, himin⟩)
    · exact Or.inl (Or.inl h)
    · exact Or.inl (Or.inr h)
    · exact Or.inr ⟨i, hi1, by omega, hiw, fun j hj1 hj2 => (himin j hj1 hj2).1⟩
  · rintro ((h | h) | ⟨i, hi1, hi2, hiw, himin⟩)
    · exact Or.inl h
    · exact Or.inr (Or.inl h)
    · have hiK : i ≤ (s - 1).toNat := by omega
      have hex : ∃ i0 : Nat, 1 ≤ i0 ∧ i0 ≤ (s - 1).toNat ∧ millerSeq a d n i0 = n - 1 :=
        ⟨i, hi1, hiK, hiw⟩
      obtain ⟨h01, h0K, h0w⟩ := Nat.find_spec hex
      have h0le : Nat.find hex ≤ i := Nat.find_min' hex ⟨hi1, hiK, hiw⟩
      refine Or.inr (Or.inr ⟨Nat.find hex, h01, h0K, h0w, ?_⟩)
      intro j hj1 hj2
      refine ⟨himin j hj1 (by omega), ?_⟩
      intro hbad
      exact Nat.find_min hex hj2 ⟨hj1, by omega, hbad⟩

/-- C3 witness: for `n = 13 = 1 + 3·2²` and base 2 the test passes, and
indeed the first squaring of `2³ mod 13 = 8` hits `n − 1 = 12`. -/
theorem check_composite_false_iff_witness :
    (check_composite 2 3 13 2 = false ↔
      (millerSeq 2 3 13 0 = 1 ∨ millerSeq 2 3 13 0 = 13 - 1) ∨
        ∃ i : Nat, 1 ≤ i ∧ (i : Int) ≤ 2 - 1 ∧ millerSeq 2 3 13 i = 13 - 1 ∧
          ∀ j : Nat, 1 ≤ j → j < i → millerSeq 2 3 13 j ≠ 1) :=
  check_composite_false_iff (by decide) (by decide) (by decide) (by decide)
    (by decide) (by decide) (by decide)

/-- C4: for odd `n ≥ 3` (64-bit), `isPrime` decomposes `n − 1 = d·2^s`
with `d` odd and `s ≥ 1`, then answers `true` exactly when no base from
`{2,3,5,7,11,13,17}` below `n` is a witness; and whenever the head base
of the remaining list is an applicable witness, the loop answers `false`
at once, whatever bases would follow. -/
theorem isPrime_odd_behavior (n aw : Int) (rest : List Int)
    (h3 : 3 ≤ n) (hn64 : n < 2 ^ 63) (hodd : n % 2 = 1) :
    ((splitOdd (n - 1)).1 % 2 = 1 ∧ 1 ≤ (splitOdd (n - 1)).2 ∧
        n - 1 = (splitOdd (n - 1)).1 * 2 ^ ((splitOdd (n - 1)).2).toNat) ∧
      (isPrime n = true ↔ ∀ a ∈ test_bases, a < n →
        check_composite a (splitOdd (n - 1)).1 n (splitOdd (n - 1)).2 = false) ∧
      (aw < n → check_composite aw (splitOdd (n - 1)).1 n (splitOdd (n - 1)).2 = true →
        baseLoop (splitOdd (n - 1)).1 n (splitOdd (n - 1)).2 (aw :: rest) = false) := by
  obtain ⟨hodd1, hpos1, hs0, hval, hev⟩ :=
    splitOdd_spec (show (0 : Int) < n - 1 by omega) (show n - 1 < 2 ^ 63 by omega)
  have hs1 : 1 ≤ (splitOdd (n - 1)).2 := hev (by omega)
  refine ⟨⟨hodd1, hs1, hval.symm⟩, ?_, ?_⟩
  · rw [isPrime_odd_unfold h3 hodd]
    exact baseLoop_true_iff _ _ _ test_bases
  · intro h1 h2
    have hcons : baseLoop (splitOdd (n - 1)).1 n (splitOdd (n - 1)).2 (aw :: rest) =
        if n ≤ aw then baseLoop (splitOdd (n - 1)).1 n (splitOdd (n - 1)).2 rest
        else if check_composite aw (splitOdd (n - 1)).1 n (splitOdd (n - 1)).2 then false
        else baseLoop (splitOdd (n - 1)).1 n (splitOdd (n - 1)).2 rest := rfl
    rw [hcons, if_neg (by omega), if_pos h2]

/-- C4 witness: `n = 9`, head base 2 (a witness for 9), remaining list
`[3]`. -/
theorem isPrime_odd_behavior_witness :
    (((splitOdd ((9 : Int) - 1)).1 % 2 = 1 ∧ 1 ≤ (splitOdd ((9 : Int) - 1)).2 ∧
        (9 : Int) - 1 = (splitOdd ((9 : Int) - 1)).1 * 2 ^ ((splitOdd ((9 : Int) - 1)).2).toNat) ∧
      (isPrime 9 = true ↔ ∀ a ∈ test_bases, a < 9 →
        check_composite a (splitOdd ((9 : Int) - 1)).1 9 (splitOdd ((9 : Int) - 1)).2 = false) ∧
      ((2 : Int) < 9 → check_composite 2 (splitOdd ((9 : Int) - 1)).1 9 (splitOdd ((9 : Int) - 1)).2 = true →
        baseLoop (splitOdd ((9 : Int) - 1)).1 9 (splitOdd ((9 : Int) - 1)).2 (2 :: [3]) = false)) :=
  isPrime_odd_behavior 9 2 [3] (by decide) (by decide) (by decide)

/-- C5: the trivial cases: every `n < 2` (negatives included) is
rejected, 2 is accepted, every even `n > 2` is rejected. -/
theorem isPrime_trivial_cases (n : Int)
    (h : n < 2 ∨ (2 < n ∧ n % 2 = 0)) :
    isPrime 2 = true ∧ isPrime n = false := by
  refine ⟨by decide, ?_⟩
  rcases h with h | ⟨h1, h2⟩
  · simp [isPrime, h]
  · have hn2 : ¬ n < 2 := by omega
    have hne : ¬ n = 2 := by omega
    simp [isPrime, hn2, h2, hne]

/-- C5 witness: instantiated at the even composite 10. -/
theorem isPrime_trivial_cases_witness : isPrime 2 = true ∧ isPrime 10 = false :=
  isPrime_trivial_cases 10 (Or.inr ⟨by decide, by decide⟩)

/-- C6: for `0 ≤ a, b < m` and `1 ≤ m ≤ 2^63 − 1`, `mulmod` returns
exactly `(a·b) mod m`, in `[0, m)`; the 128-bit intermediate product
stays below `2^127` and the result fits a 64-bit signed value. -/
theorem mulmod_correct (a b m : Int)
    (ha0 : 0 ≤ a) (ham : a < m) (hb0 : 0 ≤ b) (hbm : b < m)
    (hm1 : 1 ≤ m) (hm63 : m ≤ 2 ^ 63 - 1) :
    mulmod a b m = a * b % m ∧ 0 ≤ mulmod a b m ∧ mulmod a b m < m ∧
      0 ≤ a * b ∧ a * b < 2 ^ 127 ∧ mulmod a b m < 2 ^ 63 := by
  have hmpos : (0 : Int) < m := hm1
  have heq := mulmod_eq_emod ha0 hb0 hmpos.le
  have h1 := mulmod_nonneg ha0 hb0 hmpos
  have h2 := mulmod_lt ha0 hb0 hmpos
  refine ⟨heq, h1, h2, mul_nonneg ha0 hb0, ?_, by omega⟩
  have hab : a * b ≤ (2 ^ 63 - 2) * (2 ^ 63 - 2) := by
    have hb2 : b ≤ 2 ^ 63 - 2 := by omega
    exact mul_le_mul (by omega) hb2 hb0 (by norm_num)
  omega

/-- C6 witness: instantiated at `a = 3`, `b = 4`, `m = 5`. -/
theorem mulmod_correct_witness :
    mulmod 3 4 5 = 3 * 4 % 5 ∧ 0 ≤ mulmod 3 4 5 ∧ mulmod 3 4 5 < 5 ∧
      0 ≤ (3 : Int) * 4 ∧ (3 : Int) * 4 < 2 ^ 127 ∧ mulmod 3 4 5 < 2 ^ 63 :=
  mulmod_correct 3 4 5 (by decide) (by decide) (by decide) (by decide)
    (by decide) (by decide)

/-- C7 counterexample: at `m = 1`, `e = 0` the claim fails: the loop is
skipped and `modexp` returns its initial `result = 1`, which is neither
`5^0 mod 1 = 0` nor inside `[0, 1)`. -/
theorem modexp_claim_fails_at_modulus_one :
    modexp 5 0 1 = 1 ∧
      ¬ (modexp 5 0 1 = 5 ^ ((0 : Int)).toNat % 1 ∧ modexp 5 0 1 < 1) := by decide

/-- C7 (amended): for `a ≥ 0`, `0 ≤ e < 2^63` and `m ≥ 1`, `modexp`
computes `a^e mod m` and returns a value in `[0, m)` whenever `m ≥ 2`,
and also for `m = 1` provided `e ≥ 1`; the single exception is
`modexp a 0 1 = 1`. -/
theorem modexp_correct_amended (a b m : Int)
    (ha : 0 ≤ a) (hb : 0 ≤ b) (hb64 : b < 2 ^ 63) (hm : 1 ≤ m)
    (hok : 2 ≤ m ∨ 1 ≤ b) :
    modexp a b m = a ^ b.toNat % m ∧ 0 ≤ modexp a b m ∧ modexp a b m < m := by
  have hbn : b.toNat < 2 ^ 64 := by omega
  by_cases hm2 : 2 ≤ m
  · have h := modexp_eq_pow_emod ha hm2 hbn
    refine ⟨h, ?_, ?_⟩
    · rw [h]
      exact Int.emod_nonneg _ (by omega)
    · rw [h]
      exact Int.emod_lt_of_pos _ (by omega)
  · have hm1 : m = 1 := by omega
    subst hm1
    have hb1 : 1 ≤ b := by
      rcases hok with h | h
      · omega
      · exact h
    have h0 : modexp a b 1 = 0 := modexpFuel_modulus_one 64 1 a b hb1 hbn
    rw [h0, Int.emod_one]
    exact ⟨rfl, le_refl 0, by norm_num⟩

/-- C7 witness: instantiated at `a = 3`, `e = 4`, `m = 5`. -/
theorem modexp_correct_amended_witness :
    modexp 3 4 5 = 3 ^ ((4 : Int)).toNat % 5 ∧ 0 ≤ modexp 3 4 5 ∧ modexp 3 4 5 < 5 :=
  modexp_correct_amended 3 4 5 (by decide) (by decide) (by decide) (by decide)
    (Or.inl (by decide))

/-- C8: the identity laws of modular exponentiation: exponent 0 gives 1
and exponent 1 gives `a mod m`, for `m > 1` and `a ≥ 0`. -/
theorem modexp_identity_laws (a m : Int) (ha : 0 ≤ a) (hm : 1 < m) :
    modexp a 0 m = 1 ∧ modexp a 1 m = a % m := by
  constructor
  · exact modexp_of_nonpos (le_refl 0)
  · have h := modexp_eq_pow_emod (b := 1) (m := m) ha (by omega) (by decide)
    rw [h]
    simp

/-- C8 witness: instantiated at `a = 7`, `m = 5`. -/
theorem modexp_identity_laws_witness :
    modexp 7 0 5 = 1 ∧ modexp 7 1 5 = 7 % 5 :=
  modexp_identity_laws 7 5 (by decide) (by decide)

/-- C9 counterexample: 341 is not caught "by a base after 2" — base 2 is
itself a witness for 341 (2^85 mod 341 = 32 and 32² mod 341 = 1, so the
squaring loop hits 1 before n − 1), hence 341 is not a strong
pseudoprime to base 2 and later bases are never consulted. -/
theorem base2_already_witnesses_341 : ¬ (check_composite 2 85 341 2 = false) := by decide

/-- C9 (amended): `isPrime` classifies all the reference values of the
spec correctly; 341 is already caught by base 2 itself (341 = 340·1 + 1,
340 = 85·2²). -/
theorem isPrime_reference_values :
    isPrime 17 = true ∧ isPrime 2 = true ∧ isPrime 7919 = true ∧
      isPrime 1000000007 = true ∧ isPrime 1 = false ∧
      isPrime 341 = false ∧ isPrime 561 = false ∧ isPrime 645 = false ∧
      isPrime 1105 = false ∧ isPrime 2465 = false ∧ isPrime 41041 = false ∧
      check_composite 2 85 341 2 = true := by decide

/-- C10: the exponentiation loop terminates within 63 iterations on the
64-bit domain — any iteration budget of at least 63 computes the same
value as `modexp` — and a nonpositive exponent skips the loop entirely,
returning the initial `result = 1`. -/
theorem modexp_termination_bound (a b m : Int) (f : Nat)
    (hb : b < 2 ^ 63) (hf : 63 ≤ f) :
    modexpFuel f 1 a b m = modexp a b m ∧ (b ≤ 0 → modexp a b m = 1) := by
  constructor
  · unfold modexp
    refine modexpFuel_congr f 64 1 a b m ?_ ?_
    · have h2 : (2 : Nat) ^ 63 ≤ 2 ^ f := Nat.pow_le_pow_right (by norm_num) hf
      omega
    · omega
  · intro h
    exact modexp_of_nonpos h

/-- C10 witness: instantiated at a negative exponent and budget 100. -/
theorem modexp_termination_bound_witness :
    modexpFuel 100 1 3 (-2) 7 = modexp 3 (-2) 7 ∧
      ((-2 : Int) ≤ 0 → modexp 3 (-2) 7 = 1) :=
  modexp_termination_bound 3 (-2) 7 100 (by decide) (by decide)

end MillerRabinKarp
